import Mathlib

/-!
Verification of the LFU file cache in `src/ldx/ext/cache.py` (classes
`AttrMeta` / `AttrMixin`).  The cache is a process-wide store of parsed
JSON payloads keyed by file path, with staleness detection by mtime and
LFU eviction when full.

The shallow embedding below mirrors the Python code:

* `AttrMeta._opened_files : Dict[str, json]` and
  `AttrMeta._opened_meta : Dict[str, FileMeta]` are insertion-ordered
  dictionaries; they are modelled as association lists (`List (String × _)`)
  with Python dict semantics: assignment to an existing key replaces the
  value in place, assignment to a fresh key appends at the end, `del`
  removes the pair.
* `FileMeta` is the TypedDict with fields `mtime` and `ac`; `os.path.getmtime`
  returns a timestamp that the code only ever compares for equality, so it is
  modelled as `Int`.
* The filesystem seen by one call is a structure `FS` giving existence,
  mtime, and the outcome of open-read-parse (`json.loads`) per path; a read
  outcome is either a parsed payload, an OSError from `open`/`read`
  (`ioError`), or a `json.JSONDecodeError` (`parseError`).
* Python's `sorted(..., key=lambda item: item[1]["ac"])` is a stable
  ascending sort by access count; it is embedded as the (stable) insertion
  sort `sortAc`.
* Exceptions propagate to the caller while the mutated global dictionaries
  keep their state, so each operation returns `Except LoadErr _ × CacheState`:
  the result (or error) together with the state at the moment of return/raise.
  The `KeyError` that `_loadFile` would raise when a path is present in
  `_opened_files` but missing from `_opened_meta` while the default mtime `0`
  matches the file is modelled by `LoadErr.keyError`.
-/

namespace LdxCache

/-- The `FileMeta` TypedDict of `cache.py`: last observed mtime and access
count of one cached file. -/
structure FileMeta where
  mtime : Int
  ac : Nat
deriving DecidableEq, Repr

/-- Outcome of `open(path).read()` followed by `json.loads`: a parsed
payload `v`, an OSError other than non-existence, or a JSON parse error. -/
inductive ReadResult (α : Type) where
  | ok (v : α)
  | ioError
  | parseError
deriving DecidableEq, Repr

/-- Errors a load can raise: OSError from the read, `json.JSONDecodeError`,
or the `KeyError` latent in `_loadFile`'s hit branch. -/
inductive LoadErr where
  | ioError
  | parseError
  | keyError
deriving DecidableEq, Repr

/-- The filesystem as observed by one call: `os.path.exists`,
`os.path.getmtime`, and the result of reading-and-parsing the file. -/
structure FS (α : Type) where
  ex : String → Bool
  mtime : String → Int
  read : String → ReadResult α

/-- The mutable class state of `AttrMeta`: the payload dictionary
`_opened_files`, the metadata dictionary `_opened_meta`, and the capacity
`_total_cached`. -/
structure CacheState (α : Type) where
  openedFiles : List (String × α)
  openedMeta : List (String × FileMeta)
  totalCached : Nat
deriving Repr

/-- Dictionary lookup: the value stored at key `k`, if any. -/
def lookupA {β : Type} (k : String) : List (String × β) → Option β
  | [] => none
  | e :: rest => if e.1 = k then some e.2 else lookupA k rest

/-- Python `del d[k]`: remove the pair with key `k`. -/
def eraseA {β : Type} (k : String) : List (String × β) → List (String × β)
  | [] => []
  | e :: rest => if e.1 = k then eraseA k rest else e :: eraseA k rest

/-- Python `d[k] = v`: replace in place when `k` is present, append at the
end otherwise. -/
def setA {β : Type} (k : String) (v : β) (l : List (String × β)) :
    List (String × β) :=
  if (lookupA k l).isSome then
    l.map (fun e => if e.1 = k then (k, v) else e)
  else
    l ++ [(k, v)]

/-- Python `_opened_meta[path]["ac"] += 1`: bump the access count of the
entry at key `k`, in place. -/
def bumpAc (k : String) (l : List (String × FileMeta)) :
    List (String × FileMeta) :=
  l.map (fun e => if e.1 = k then (e.1, ⟨e.2.mtime, e.2.ac + 1⟩) else e)

/-- The keys of a dictionary, in insertion order. -/
def keysOf {β : Type} (l : List (String × β)) : List String :=
  l.map Prod.fst

/-- One step of the stable ascending insertion sort by access count. -/
def insertAc (x : String × FileMeta) :
    List (String × FileMeta) → List (String × FileMeta)
  | [] => [x]
  | y :: ys => if y.2.ac < x.2.ac then y :: insertAc x ys else x :: y :: ys

/-- Python `sorted(_opened_meta.items(), key=lambda item: item[1]["ac"])`:
a stable sort, ascending by access count. -/
def sortAc : List (String × FileMeta) → List (String × FileMeta)
  | [] => []
  | x :: xs => insertAc x (sortAc xs)

/-- `del AttrMeta._opened_files[evict_path]; del AttrMeta._opened_meta[evict_path]`
for one eviction victim. -/
def evictOne {α : Type} (st : CacheState α) (k : String) : CacheState α :=
  { st with
    openedFiles := eraseA k st.openedFiles
    openedMeta := eraseA k st.openedMeta }

/-- The eviction loop `for evict_path, _ in to_evict: del ...; del ...`. -/
def evictEntries {α : Type} (st : CacheState α)
    (toEvict : List (String × FileMeta)) : CacheState α :=
  toEvict.foldl (fun s e => evictOne s e.1) st

/-- The eviction block at the top of `__real_load__`: when
`len(_opened_files) >= _total_cached`, stably sort the metadata items by
access count and delete the first `len - _total_cached + 1` of them from
both dictionaries. -/
def evictPhase {α : Type} (st : CacheState α) : CacheState α :=
  if st.totalCached ≤ st.openedFiles.length then
    let sortedMeta := sortAc st.openedMeta
    let numToEvict := st.openedFiles.length - st.totalCached + 1
    let toEvict := sortedMeta.take numToEvict
    evictEntries st toEvict
  else st

/-- `AttrMixin.__real_load__`: evict least-accessed entries when the cache
is full, then read and parse the file and install the fresh entry with
access count 1.  Note the eviction happens before the read, so a failed
read or parse returns with the eviction already applied. -/
def realLoad {α : Type} (fs : FS α) (st : CacheState α) (path : String) :
    Except LoadErr α × CacheState α :=
  let st1 := evictPhase st
  match fs.read path with
  | ReadResult.ioError => (Except.error LoadErr.ioError, st1)
  | ReadResult.parseError => (Except.error LoadErr.parseError, st1)
  | ReadResult.ok data =>
      (Except.ok data,
        { st1 with
          openedFiles := setA path data st1.openedFiles
          openedMeta := setA path ⟨fs.mtime path, 1⟩ st1.openedMeta })

/-- `AttrMeta._opened_meta.get(path, {}).get("mtime", 0)`. -/
def metaMtime {α : Type} (st : CacheState α) (path : String) : Int :=
  match lookupA path st.openedMeta with
  | some m => m.mtime
  | none => 0

/-- `AttrMixin._loadFile`: return `none` (Python `None`) and drop any entry
when the file does not exist; on a fresh-mtime hit bump the access count and
return the cached payload; otherwise reload via `__real_load__`. -/
def loadFile {α : Type} (fs : FS α) (st : CacheState α) (path : String) :
    Except LoadErr (Option α) × CacheState α :=
  if fs.ex path = false then
    (Except.ok none,
      { st with
        openedFiles := eraseA path st.openedFiles
        openedMeta := eraseA path st.openedMeta })
  else if (lookupA path st.openedFiles).isSome ∧
      metaMtime st path = fs.mtime path then
    match lookupA path st.openedMeta with
    | some _ =>
        (Except.ok (lookupA path st.openedFiles),
          { st with openedMeta := bumpAc path st.openedMeta })
    | none => (Except.error LoadErr.keyError, st)
  else
    let r := realLoad fs st path
    (r.1.map some, r.2)

/-- The store at process start: both dictionaries empty, capacity `cap`
(`_total_cached`, default 1000). -/
def emptyStore (α : Type) (cap : Nat) : CacheState α :=
  ⟨[], [], cap⟩

/-- Run a sequence of `_loadFile` calls, each with the filesystem as it
stands at the time of that call, threading the store state through. -/
def runTrace {α : Type} (steps : List (FS α × String)) (st : CacheState α) :
    CacheState α :=
  steps.foldl (fun s step => (loadFile step.1 s step.2).2) st

/-- Repeat `n` consecutive `_loadFile` calls on the same path against the
same filesystem, keeping only the store state. -/
def iterHit {α : Type} (fs : FS α) (path : String) :
    Nat → CacheState α → CacheState α
  | 0, st => st
  | n + 1, st => iterHit fs path n (loadFile fs st path).2

/-- The structural invariant tying the two dictionaries together: they hold
the same keys in the same insertion order, without duplicates. -/
def Inv {α : Type} (st : CacheState α) : Prop :=
  keysOf st.openedFiles = keysOf st.openedMeta ∧
    (keysOf st.openedFiles).Nodup

instance {α : Type} (st : CacheState α) : Decidable (Inv st) := by
  unfold Inv; infer_instance

/-- `EvictsBefore l a b` says that the eviction order puts `a` strictly
before `b` relative to the dictionary `l`: either `a` has a strictly
smaller access count, or the counts are equal and `a` was inserted into
`l` earlier (it occurs before `b` in `l`). -/
def EvictsBefore (l : List (String × FileMeta))
    (a b : String × FileMeta) : Prop :=
  a.2.ac < b.2.ac ∨ (a.2.ac = b.2.ac ∧ List.Sublist [a, b] l)

/-- The combined invariant threaded along a trace of loads: the two
dictionaries agree, the size bound holds, and the capacity is `cap`. -/
def GoodState {α : Type} (cap : Nat) (st : CacheState α) : Prop :=
  Inv st ∧ st.openedFiles.length ≤ cap ∧ st.totalCached = cap

/-! ### Concrete fixtures used by the scenario theorem, counterexamples
and witnesses.  Payloads are modelled by `Nat` stand-ins for parsed JSON
values. -/

/-- Filesystem for the capacity-2 scenario of the spec: files `a`, `b`,
`c` all exist, with fixed distinct mtimes and payloads. -/
def fsABC : FS Nat :=
  ⟨fun _ => true,
   fun p => if p = "a" then 10 else if p = "b" then 20 else 30,
   fun p => ReadResult.ok (if p = "a" then 1 else if p = "b" then 2 else 3)⟩

/-- A full capacity-1 store holding only `a`. -/
def stFullA : CacheState Nat := ⟨[("a", 1)], [("a", ⟨0, 1⟩)], 1⟩

/-- A filesystem where every file exists but all contents fail to parse. -/
def fsParseFail : FS Nat :=
  ⟨fun _ => true, fun _ => 5, fun _ => ReadResult.parseError⟩

/-- A full capacity-1 store holding only `p`, loaded at mtime 5. -/
def stFullP : CacheState Nat := ⟨[("p", 7)], [("p", ⟨5, 2⟩)], 1⟩

/-- A filesystem where `p` exists with a changed mtime (6) and its
contents fail to parse. -/
def fsStaleFail : FS Nat :=
  ⟨fun _ => true, fun _ => 6, fun _ => ReadResult.parseError⟩

/-- A small store with one entry `a` cached at mtime 5, capacity 10. -/
def stOneA : CacheState Nat := ⟨[("a", 3)], [("a", ⟨5, 1⟩)], 10⟩

/-- A store holding only `p` (mtime 5), far below its capacity of 10. -/
def stPBig : CacheState Nat := ⟨[("p", 7)], [("p", ⟨5, 2⟩)], 10⟩

/-- A filesystem where every file exists at mtime 5 with payload 7. -/
def fsFlat : FS Nat :=
  ⟨fun _ => true, fun _ => 5, fun _ => ReadResult.ok 7⟩

/-- A filesystem on which no file exists. -/
def fsNone : FS Nat :=
  ⟨fun _ => false, fun _ => 0, fun _ => ReadResult.ioError⟩

/-! ### Dictionary lemmas -/

variable {α β : Type}

theorem lookupA_eraseA (k q : String) (l : List (String × β)) :
    lookupA q (eraseA k l) = if q = k then none else lookupA q l := by
  induction l with
  | nil => simp [eraseA, lookupA]
  | cons e rest ih =>
      by_cases hqk : q = k
      · subst hqk
        by_cases hek : e.1 = q
        · simpa [eraseA, hek] using ih
        · simpa [eraseA, hek, lookupA] using ih
      · by_cases hek : e.1 = k
        · have heq : ¬ e.1 = q := by
            rw [hek]; exact fun h => hqk h.symm
          have hkq : ¬ k = q := fun h => hqk h.symm
          simp [eraseA, hek, lookupA, heq, hqk, hkq, ih]
        · simp [eraseA, hek, lookupA, hqk, ih]

theorem keysOf_eraseA (k : String) (l : List (String × β)) :
    keysOf (eraseA k l) = (keysOf l).filter (fun x => !(decide (x = k))) := by
  induction l with
  | nil => rfl
  | cons e rest ih =>
      by_cases hek : e.1 = k
      · simpa [eraseA, hek, keysOf, List.filter_cons] using ih
      · simpa [eraseA, hek, keysOf, List.filter_cons] using ih

theorem lookupA_isSome_iff (k : String) (l : List (String × β)) :
    (lookupA k l).isSome = true ↔ k ∈ keysOf l := by
  induction l with
  | nil => simp [lookupA, keysOf]
  | cons e rest ih =>
      by_cases hek : e.1 = k
      · simp [lookupA, hek, keysOf]
      · have : ¬ k = e.1 := fun h => hek h.symm
        simp [lookupA, hek, keysOf, ih, this]

theorem lookupA_mapSet (k q : String) (v : β) (l : List (String × β)) :
    lookupA q (l.map (fun e => if e.1 = k then (k, v) else e)) =
      if q = k then (lookupA k l).map (fun _ => v) else lookupA q l := by
  induction l with
  | nil => by_cases hqk : q = k <;> simp [lookupA, hqk]
  | cons e rest ih =>
      by_cases hek : e.1 = k
      · by_cases hqk : q = k
        · subst hqk; simp [lookupA, hek]
        · have heq : ¬ e.1 = q := by
            rw [hek]; exact fun h => hqk h.symm
          have hkq : ¬ k = q := fun h => hqk h.symm
          simpa [lookupA, hek, hkq, heq, hqk] using ih
      · by_cases heq : e.1 = q
        · have hqk : ¬ q = k := by rw [← heq]; exact hek
          simp [lookupA, hek, heq, hqk]
        · simpa [lookupA, hek, heq] using ih

theorem lookupA_appendNew (k q : String) (v : β) (l : List (String × β))
    (hmem : lookupA k l = none) :
    lookupA q (l ++ [(k, v)]) = if q = k then some v else lookupA q l := by
  induction l with
  | nil =>
      by_cases hqk : q = k
      · simp [lookupA, hqk]
      · have hkq : ¬ k = q := fun h => hqk h.symm
        simp [lookupA, hqk, hkq]
  | cons e rest ih =>
      have hek : ¬ e.1 = k := by
        intro h; rw [lookupA, if_pos h] at hmem; exact Option.noConfusion hmem
      have hrest : lookupA k rest = none := by
        rwa [lookupA, if_neg hek] at hmem
      by_cases heq : e.1 = q
      · have hqk : ¬ q = k := by rw [← heq]; exact hek
        simp [lookupA, heq, hqk]
      · simpa [lookupA, heq] using ih hrest

theorem lookupA_setA (k q : String) (v : β) (l : List (String × β)) :
    lookupA q (setA k v l) = if q = k then some v else lookupA q l := by
  unfold setA
  by_cases hmem : (lookupA k l).isSome = true
  · rw [if_pos hmem, lookupA_mapSet]
    obtain ⟨w, hw⟩ := Option.isSome_iff_exists.mp hmem
    by_cases hqk : q = k <;> simp [hqk, hw]
  · rw [if_neg hmem]
    exact lookupA_appendNew k q v l (by
      cases h : lookupA k l with
      | none => rfl
      | some w => exact absurd (by simp [h]) hmem)

theorem keysOf_mapSet (k : String) (v : β) (l : List (String × β)) :
    keysOf (l.map (fun e => if e.1 = k then (k, v) else e)) = keysOf l := by
  induction l with
  | nil => rfl
  | cons e rest ih =>
      by_cases hek : e.1 = k
      · simpa [keysOf, hek] using ih
      · simpa [keysOf, hek] using ih

theorem keysOf_setA (k : String) (v : β) (l : List (String × β)) :
    keysOf (setA k v l) =
      if (lookupA k l).isSome then keysOf l else keysOf l ++ [k] := by
  unfold setA
  by_cases hmem : (lookupA k l).isSome = true
  · rw [if_pos hmem, if_pos hmem, keysOf_mapSet]
  · rw [if_neg hmem, if_neg hmem]
    simp [keysOf]

theorem length_setA (k : String) (v : β) (l : List (String × β)) :
    (setA k v l).length =
      if (lookupA k l).isSome then l.length else l.length + 1 := by
  unfold setA
  by_cases hmem : (lookupA k l).isSome = true
  · simp [hmem]
  · simp [hmem]

theorem lookupA_bumpAc (k q : String) (l : List (String × FileMeta)) :
    lookupA q (bumpAc k l) =
      if q = k then
        (lookupA k l).map (fun m => FileMeta.mk m.mtime (m.ac + 1))
      else lookupA q l := by
  induction l with
  | nil => by_cases hqk : q = k <;> simp [bumpAc, lookupA, hqk]
  | cons e rest ih =>
      unfold bumpAc at ih ⊢
      by_cases hek : e.1 = k
      · by_cases hqk : q = k
        · subst hqk; simp [lookupA, hek]
        · have heq : ¬ e.1 = q := by
            rw [hek]; exact fun h => hqk h.symm
          have hkq : ¬ k = q := fun h => hqk h.symm
          simpa [lookupA, hek, hqk, hkq, heq] using ih
      · by_cases heq : e.1 = q
        · have hqk : ¬ q = k := by rw [← heq]; exact hek
          simp [lookupA, hek, heq, hqk]
        · simpa [lookupA, hek, heq] using ih

theorem keysOf_bumpAc (k : String) (l : List (String × FileMeta)) :
    keysOf (bumpAc k l) = keysOf l := by
  induction l with
  | nil => rfl
  | cons e rest ih =>
      unfold bumpAc at ih ⊢
      by_cases hek : e.1 = k
      · simpa [keysOf, hek] using ih
      · simpa [keysOf, hek] using ih

theorem eraseA_not_mem (k : String) (l : List (String × β))
    (h : k ∉ keysOf l) : eraseA k l = l := by
  induction l with
  | nil => rfl
  | cons e rest ih =>
      rw [show keysOf (e :: rest) = e.1 :: keysOf rest from rfl,
        List.mem_cons, not_or] at h
      have hek : ¬ e.1 = k := fun hk => h.1 hk.symm
      simp [eraseA, hek, ih h.2]

theorem mem_keysOf_eraseA (k q : String) (l : List (String × β)) :
    q ∈ keysOf (eraseA k l) ↔ q ∈ keysOf l ∧ ¬ q = k := by
  rw [keysOf_eraseA]
  simp

theorem nodup_keysOf_eraseA (k : String) (l : List (String × β))
    (h : (keysOf l).Nodup) : (keysOf (eraseA k l)).Nodup := by
  rw [keysOf_eraseA]
  exact h.filter _

theorem length_eraseA_mem (k : String) (l : List (String × β))
    (hnd : (keysOf l).Nodup) (hmem : k ∈ keysOf l) :
    (eraseA k l).length = l.length - 1 := by
  induction l with
  | nil => simp [keysOf] at hmem
  | cons e rest ih =>
      by_cases hek : e.1 = k
      · have hk : k ∉ keysOf rest := by
          rw [← hek]
          exact (List.nodup_cons.mp hnd).1
        simp [eraseA, hek, eraseA_not_mem k rest hk]
      · have hmem' : k ∈ keysOf rest := by
          rw [show keysOf (e :: rest) = e.1 :: keysOf rest from rfl,
            List.mem_cons] at hmem
          rcases hmem with h | h
          · exact absurd h.symm hek
          · exact h
        have hlen := ih (List.nodup_cons.mp hnd).2 hmem'
        have hpos : 1 ≤ rest.length := by
          rcases rest with _ | ⟨f, rr⟩
          · simp [keysOf] at hmem'
          · simp
        rw [show eraseA k (e :: rest) = e :: eraseA k rest by
          simp [eraseA, hek]]
        simp only [List.length_cons, hlen]
        omega

/-! ### Eviction loop lemmas -/

theorem evictEntries_total (es : List (String × FileMeta))
    (st : CacheState α) : (evictEntries st es).totalCached = st.totalCached := by
  induction es generalizing st with
  | nil => rfl
  | cons e es ih =>
      show (evictEntries (evictOne st e.1) es).totalCached = _
      rw [ih]
      rfl

theorem evictEntries_lookupFiles (es : List (String × FileMeta))
    (st : CacheState α) (q : String) :
    lookupA q (evictEntries st es).openedFiles =
      if q ∈ keysOf es then none else lookupA q st.openedFiles := by
  induction es generalizing st with
  | nil => simp [evictEntries, keysOf]
  | cons e es ih =>
      show lookupA q (evictEntries (evictOne st e.1) es).openedFiles = _
      rw [ih, show keysOf (e :: es) = e.1 :: keysOf es from rfl]
      by_cases hq : q = e.1
      · simp [evictOne, lookupA_eraseA, hq, List.mem_cons]
      · by_cases hmem : q ∈ keysOf es
        · simp [evictOne, lookupA_eraseA, hq, hmem, List.mem_cons]
        · simp [evictOne, lookupA_eraseA, hq, hmem, List.mem_cons]

theorem evictEntries_lookupMeta (es : List (String × FileMeta))
    (st : CacheState α) (q : String) :
    lookupA q (evictEntries st es).openedMeta =
      if q ∈ keysOf es then none else lookupA q st.openedMeta := by
  induction es generalizing st with
  | nil => simp [evictEntries, keysOf]
  | cons e es ih =>
      show lookupA q (evictEntries (evictOne st e.1) es).openedMeta = _
      rw [ih, show keysOf (e :: es) = e.1 :: keysOf es from rfl]
      by_cases hq : q = e.1
      · simp [evictOne, lookupA_eraseA, hq, List.mem_cons]
      · by_cases hmem : q ∈ keysOf es
        · simp [evictOne, lookupA_eraseA, hq, hmem, List.mem_cons]
        · simp [evictOne, lookupA_eraseA, hq, hmem, List.mem_cons]

theorem evictEntries_keysFiles (es : List (String × FileMeta))
    (st : CacheState α) :
    keysOf (evictEntries st es).openedFiles =
      (keysOf st.openedFiles).filter
        (fun x => !(decide (x ∈ keysOf es))) := by
  induction es generalizing st with
  | nil => simp [evictEntries, keysOf]
  | cons e es ih =>
      show keysOf (evictEntries (evictOne st e.1) es).openedFiles = _
      rw [ih]
      show (keysOf (eraseA e.1 st.openedFiles)).filter _ = _
      rw [keysOf_eraseA, List.filter_filter]
      apply List.filter_congr
      intro a _
      by_cases h1 : a = e.1 <;> by_cases h2 : a ∈ keysOf es <;>
        simp [keysOf, h1, h2]

theorem evictEntries_keysMeta (es : List (String × FileMeta))
    (st : CacheState α) :
    keysOf (evictEntries st es).openedMeta =
      (keysOf st.openedMeta).filter
        (fun x => !(decide (x ∈ keysOf es))) := by
  induction es generalizing st with
  | nil => simp [evictEntries, keysOf]
  | cons e es ih =>
      show keysOf (evictEntries (evictOne st e.1) es).openedMeta = _
      rw [ih]
      show (keysOf (eraseA e.1 st.openedMeta)).filter _ = _
      rw [keysOf_eraseA, List.filter_filter]
      apply List.filter_congr
      intro a _
      by_cases h1 : a = e.1 <;> by_cases h2 : a ∈ keysOf es <;>
        simp [keysOf, h1, h2]

theorem evictEntries_lengthFiles (es : List (String × FileMeta))
    (st : CacheState α) (hnd : (keysOf es).Nodup)
    (hubf : ∀ x ∈ keysOf es, x ∈ keysOf st.openedFiles)
    (hndf : (keysOf st.openedFiles).Nodup) :
    (evictEntries st es).openedFiles.length =
      st.openedFiles.length - es.length := by
  induction es generalizing st with
  | nil => simp [evictEntries]
  | cons e es ih =>
      have hmemf : e.1 ∈ keysOf st.openedFiles :=
        hubf e.1 (by simp [keysOf])
      have hnd' : (keysOf es).Nodup := (List.nodup_cons.mp hnd).2
      have hne : e.1 ∉ keysOf es := by
        simpa [keysOf] using (List.nodup_cons.mp hnd).1
      have hlen1 : (eraseA e.1 st.openedFiles).length =
          st.openedFiles.length - 1 :=
        length_eraseA_mem e.1 st.openedFiles hndf hmemf
      have hpos : 1 ≤ st.openedFiles.length := by
        rcases hst : st.openedFiles with _ | ⟨f, rr⟩
        · rw [hst] at hmemf; simp [keysOf] at hmemf
        · simp
      have hstep := ih (evictOne st e.1) hnd'
        (by
          intro x hx
          rw [show (evictOne st e.1).openedFiles = eraseA e.1 st.openedFiles
            from rfl, mem_keysOf_eraseA]
          refine ⟨hubf x (by
            rw [show keysOf (e :: es) = e.1 :: keysOf es from rfl]
            exact List.mem_cons_of_mem _ hx), ?_⟩
          intro hxe
          exact hne (hxe ▸ hx))
        (by
          show (keysOf (eraseA e.1 st.openedFiles)).Nodup
          exact nodup_keysOf_eraseA e.1 st.openedFiles hndf)
      show (evictEntries (evictOne st e.1) es).openedFiles.length = _
      rw [hstep]
      show (eraseA e.1 st.openedFiles).length - es.length = _
      rw [hlen1]
      simp only [List.length_cons]
      omega

/-! ### Stable sort lemmas -/

theorem insertAc_perm (x : String × FileMeta)
    (l : List (String × FileMeta)) : (insertAc x l).Perm (x :: l) := by
  induction l with
  | nil => exact List.Perm.refl _
  | cons y ys ih =>
      by_cases h : y.2.ac < x.2.ac
      · rw [show insertAc x (y :: ys) = y :: insertAc x ys by
          simp [insertAc, h]]
        exact (ih.cons y).trans (List.Perm.swap x y ys)
      · rw [show insertAc x (y :: ys) = x :: y :: ys by
          simp [insertAc, h]]

theorem sortAc_perm (l : List (String × FileMeta)) :
    (sortAc l).Perm l := by
  induction l with
  | nil => exact List.Perm.refl _
  | cons x xs ih =>
      exact (insertAc_perm x (sortAc xs)).trans (ih.cons x)

theorem mem_insertAc {x z : String × FileMeta}
    {l : List (String × FileMeta)} (h : z ∈ insertAc x l) :
    z = x ∨ z ∈ l := by
  have := (insertAc_perm x l).mem_iff.mp h
  simpa using this

theorem evictsBefore_weaken (x : String × FileMeta)
    (xs : List (String × FileMeta)) {a b : String × FileMeta}
    (h : EvictsBefore xs a b) : EvictsBefore (x :: xs) a b := by
  rcases h with h | ⟨heq, hsub⟩
  · exact Or.inl h
  · exact Or.inr ⟨heq, hsub.cons x⟩

theorem pairwise_insertAc (x : String × FileMeta)
    (xs s : List (String × FileMeta)) (hsub : ∀ z ∈ s, z ∈ xs)
    (hp : s.Pairwise (EvictsBefore xs)) :
    (insertAc x s).Pairwise (EvictsBefore (x :: xs)) := by
  induction s with
  | nil => simp [insertAc]
  | cons y ys ih =>
      rcases List.pairwise_cons.mp hp with ⟨hy, hys⟩
      by_cases h : y.2.ac < x.2.ac
      · rw [show insertAc x (y :: ys) = y :: insertAc x ys by
          simp [insertAc, h]]
        refine List.pairwise_cons.mpr ⟨?_, ?_⟩
        · intro z hz
          rcases mem_insertAc hz with rfl | hzys
          · exact Or.inl h
          · exact evictsBefore_weaken x xs (hy z hzys)
        · exact ih (fun z hz => hsub z (List.mem_cons_of_mem y hz)) hys
      · rw [show insertAc x (y :: ys) = x :: y :: ys by
          simp [insertAc, h]]
        refine List.pairwise_cons.mpr ⟨?_, ?_⟩
        · intro z hz
          have hxz : x.2.ac ≤ z.2.ac := by
            rcases List.mem_cons.mp hz with rfl | hzys
            · exact Nat.le_of_not_lt h
            · have hyz : y.2.ac ≤ z.2.ac := by
                rcases hy z hzys with h1 | ⟨h1, _⟩
                · exact Nat.le_of_lt h1
                · exact Nat.le_of_eq h1
              exact Nat.le_trans (Nat.le_of_not_lt h) hyz
          rcases Nat.lt_or_ge x.2.ac z.2.ac with hlt | hge
          · exact Or.inl hlt
          · refine Or.inr ⟨Nat.le_antisymm hxz hge, ?_⟩
            rw [show ([x, z] : List (String × FileMeta)) = x :: [z] from rfl]
            rw [List.cons_sublist_cons]
            exact List.singleton_sublist.mpr (hsub z hz)
        · exact (List.pairwise_cons.mpr ⟨hy, hys⟩).imp
            (evictsBefore_weaken x xs)

theorem sortAc_pairwise (l : List (String × FileMeta)) :
    (sortAc l).Pairwise (EvictsBefore l) := by
  induction l with
  | nil => simp [sortAc]
  | cons x xs ih =>
      exact pairwise_insertAc x xs (sortAc xs)
        (fun z hz => (sortAc_perm xs).mem_iff.mp hz) ih

/-- Every entry of the eviction prefix `take k (sortAc l)` evicts-before
every entry of `l` that is outside the prefix. -/
theorem take_sortAc_spec (l : List (String × FileMeta)) (k : Nat)
    {a b : String × FileMeta} (ha : a ∈ (sortAc l).take k)
    (hb : b ∈ l) (hbn : b ∉ (sortAc l).take k) :
    EvictsBefore l a b := by
  have hsplit : (sortAc l).take k ++ (sortAc l).drop k = sortAc l :=
    List.take_append_drop k (sortAc l)
  have hp : ((sortAc l).take k ++ (sortAc l).drop k).Pairwise
      (EvictsBefore l) := by
    rw [hsplit]; exact sortAc_pairwise l
  have hbd : b ∈ (sortAc l).drop k := by
    have hbs : b ∈ sortAc l := (sortAc_perm l).mem_iff.mpr hb
    rw [← hsplit] at hbs
    rcases List.mem_append.mp hbs with h | h
    · exact absurd h hbn
    · exact h
  exact (List.pairwise_append.mp hp).2.2 a ha b hbd

/-! ### Invariant preservation -/

theorem keysOf_length (l : List (String × β)) :
    (keysOf l).length = l.length :=
  List.length_map l Prod.fst

theorem length_eraseA_le (k : String) (l : List (String × β)) :
    (eraseA k l).length ≤ l.length := by
  induction l with
  | nil => simp [eraseA]
  | cons e rest ih =>
      by_cases hek : e.1 = k
      · rw [show eraseA k (e :: rest) = eraseA k rest by simp [eraseA, hek]]
        exact Nat.le_trans ih (Nat.le_succ _)
      · rw [show eraseA k (e :: rest) = e :: eraseA k rest by
          simp [eraseA, hek]]
        simpa using ih

theorem inv_lengths_eq {st : CacheState α} (hInv : Inv st) :
    st.openedFiles.length = st.openedMeta.length := by
  have := congrArg List.length hInv.1
  rwa [keysOf_length, keysOf_length] at this

/-- The bookkeeping facts about the eviction prefix computed by
`__real_load__` when the cache is full. -/
theorem full_evict_facts (st : CacheState α) (hInv : Inv st)
    (hcap : 1 ≤ st.totalCached)
    (hfull : st.totalCached ≤ st.openedFiles.length) :
    ((sortAc st.openedMeta).take
        (st.openedFiles.length - st.totalCached + 1)).length =
      st.openedFiles.length - st.totalCached + 1 ∧
    (keysOf ((sortAc st.openedMeta).take
        (st.openedFiles.length - st.totalCached + 1))).Nodup ∧
    (∀ x ∈ keysOf ((sortAc st.openedMeta).take
        (st.openedFiles.length - st.totalCached + 1)),
      x ∈ keysOf st.openedFiles) ∧
    (evictEntries st ((sortAc st.openedMeta).take
        (st.openedFiles.length - st.totalCached + 1))).openedFiles.length =
      st.totalCached - 1 := by
  set k := st.openedFiles.length - st.totalCached + 1 with hk
  set es := (sortAc st.openedMeta).take k with hes
  have hsortlen : (sortAc st.openedMeta).length = st.openedMeta.length :=
    (sortAc_perm st.openedMeta).length_eq
  have hlen : es.length = k := by
    rw [hes, List.length_take, hsortlen, ← inv_lengths_eq hInv]
    omega
  have hkeyssub : ∀ x ∈ keysOf es, x ∈ keysOf st.openedFiles := by
    intro x hx
    have h1 : x ∈ keysOf (sortAc st.openedMeta) := by
      rw [hes] at hx
      unfold keysOf at hx ⊢
      exact (List.map_subset Prod.fst (List.take_subset k _)) hx
    have h2 : x ∈ keysOf st.openedMeta := by
      unfold keysOf at h1 ⊢
      exact (((sortAc_perm st.openedMeta).map Prod.fst).mem_iff).mp h1
    rw [hInv.1]
    exact h2
  have hndmeta : (keysOf st.openedMeta).Nodup := hInv.1 ▸ hInv.2
  have hndsort : (keysOf (sortAc st.openedMeta)).Nodup := by
    unfold keysOf
    exact (((sortAc_perm st.openedMeta).map Prod.fst).nodup_iff).mpr hndmeta
  have hndes : (keysOf es).Nodup := by
    rw [hes]
    unfold keysOf
    rw [List.map_take]
    unfold keysOf at hndsort
    exact List.Nodup.sublist (List.take_sublist k _) hndsort
  refine ⟨hlen, hndes, hkeyssub, ?_⟩
  rw [evictEntries_lengthFiles es st hndes hkeyssub hInv.2, hlen]
  omega

theorem setA_inv (st1 : CacheState α) (h1 : Inv st1) (path : String)
    (d : α) (fm : FileMeta) :
    Inv { st1 with
      openedFiles := setA path d st1.openedFiles,
      openedMeta := setA path fm st1.openedMeta } := by
  have heq : (lookupA path st1.openedFiles).isSome =
      (lookupA path st1.openedMeta).isSome := by
    by_cases hmem : path ∈ keysOf st1.openedFiles
    · have h2 : path ∈ keysOf st1.openedMeta := h1.1 ▸ hmem
      rw [(lookupA_isSome_iff path _).mpr hmem,
        (lookupA_isSome_iff path _).mpr h2]
    · have h2 : path ∉ keysOf st1.openedMeta := h1.1 ▸ hmem
      have e1 : (lookupA path st1.openedFiles).isSome = false := by
        cases h : (lookupA path st1.openedFiles).isSome
        · rfl
        · exact absurd ((lookupA_isSome_iff path _).mp h) hmem
      have e2 : (lookupA path st1.openedMeta).isSome = false := by
        cases h : (lookupA path st1.openedMeta).isSome
        · rfl
        · exact absurd ((lookupA_isSome_iff path _).mp h) h2
      rw [e1, e2]
  constructor
  · show keysOf (setA path d st1.openedFiles) =
      keysOf (setA path fm st1.openedMeta)
    rw [keysOf_setA, keysOf_setA, ← heq, h1.1]
  · show (keysOf (setA path d st1.openedFiles)).Nodup
    rw [keysOf_setA]
    by_cases hmem : (lookupA path st1.openedFiles).isSome = true
    · rw [if_pos hmem]
      exact h1.2
    · rw [if_neg hmem]
      rw [List.nodup_append]
      refine ⟨h1.2, List.nodup_singleton path, ?_⟩
      intro x hx hx1
      rcases List.mem_singleton.mp hx1 with rfl
      exact hmem ((lookupA_isSome_iff x _).mpr hx)

theorem evictPhase_inv (st : CacheState α) (hInv : Inv st) :
    Inv (evictPhase st) := by
  unfold evictPhase
  by_cases hfull : st.totalCached ≤ st.openedFiles.length
  · rw [if_pos hfull]
    constructor
    · rw [evictEntries_keysFiles, evictEntries_keysMeta, hInv.1]
    · rw [evictEntries_keysFiles]
      exact hInv.2.filter _
  · rw [if_neg hfull]
    exact hInv

theorem realLoad_inv (fs : FS α) (st : CacheState α) (path : String)
    (hInv : Inv st) : Inv (realLoad fs st path).2 := by
  have hInvEv := evictPhase_inv st hInv
  unfold realLoad
  cases hr : fs.read path with
  | ok d => exact setA_inv _ hInvEv path d _
  | ioError => exact hInvEv
  | parseError => exact hInvEv

theorem loadFile_total (fs : FS α) (st : CacheState α) (path : String) :
    (loadFile fs st path).2.totalCached = st.totalCached := by
  unfold loadFile
  by_cases hex : fs.ex path = false
  · simp [hex]
  · rw [if_neg hex]
    by_cases hhit : (lookupA path st.openedFiles).isSome = true ∧
        metaMtime st path = fs.mtime path
    · rw [if_pos (by exact hhit)]
      cases hm : lookupA path st.openedMeta <;> simp
    · rw [if_neg (by exact hhit)]
      show (realLoad fs st path).2.totalCached = st.totalCached
      unfold realLoad evictPhase
      cases hr : fs.read path <;>
        by_cases hfull : st.totalCached ≤ st.openedFiles.length <;>
          simp [hr, hfull, evictEntries_total]

theorem loadFile_inv (fs : FS α) (st : CacheState α) (path : String)
    (hInv : Inv st) : Inv (loadFile fs st path).2 := by
  unfold loadFile
  by_cases hex : fs.ex path = false
  · rw [if_pos hex]
    refine ⟨?_, ?_⟩
    · show keysOf (eraseA path st.openedFiles) =
        keysOf (eraseA path st.openedMeta)
      rw [keysOf_eraseA, keysOf_eraseA, hInv.1]
    · show (keysOf (eraseA path st.openedFiles)).Nodup
      exact nodup_keysOf_eraseA path _ hInv.2
  · rw [if_neg hex]
    by_cases hhit : (lookupA path st.openedFiles).isSome = true ∧
        metaMtime st path = fs.mtime path
    · rw [if_pos (by exact hhit)]
      cases hm : lookupA path st.openedMeta with
      | none => exact hInv
      | some m =>
          refine ⟨?_, hInv.2⟩
          show keysOf st.openedFiles = keysOf (bumpAc path st.openedMeta)
          rw [keysOf_bumpAc, hInv.1]
    · rw [if_neg (by exact hhit)]
      show Inv (realLoad fs st path).2
      exact realLoad_inv fs st path hInv

theorem realLoad_length (fs : FS α) (st : CacheState α) (path : String)
    (hInv : Inv st) (hcap : 1 ≤ st.totalCached)
    (hlen : st.openedFiles.length ≤ st.totalCached) :
    (realLoad fs st path).2.openedFiles.length ≤ st.totalCached := by
  unfold realLoad evictPhase
  by_cases hfull : st.totalCached ≤ st.openedFiles.length
  · obtain ⟨hl, hnd, hsub, hfin⟩ := full_evict_facts st hInv hcap hfull
    rw [if_pos hfull]
    cases hr : fs.read path with
    | ok d =>
        show (setA path d _).length ≤ st.totalCached
        rw [length_setA]
        by_cases hmem : (lookupA path
            (evictEntries st ((sortAc st.openedMeta).take
              (st.openedFiles.length - st.totalCached + 1))).openedFiles).isSome = true
        · rw [if_pos hmem, hfin]
          omega
        · rw [if_neg hmem, hfin]
          omega
    | ioError =>
        show (evictEntries st _).openedFiles.length ≤ st.totalCached
        rw [hfin]
        omega
    | parseError =>
        show (evictEntries st _).openedFiles.length ≤ st.totalCached
        rw [hfin]
        omega
  · rw [if_neg hfull]
    have hlt : st.openedFiles.length < st.totalCached := Nat.lt_of_not_le hfull
    cases hr : fs.read path with
    | ok d =>
        show (setA path d st.openedFiles).length ≤ st.totalCached
        rw [length_setA]
        by_cases hmem : (lookupA path st.openedFiles).isSome = true
        · rw [if_pos hmem]
          exact hlen
        · rw [if_neg hmem]
          omega
    | ioError => exact hlen
    | parseError => exact hlen

theorem loadFile_length (fs : FS α) (st : CacheState α) (path : String)
    (hInv : Inv st) (hcap : 1 ≤ st.totalCached)
    (hlen : st.openedFiles.length ≤ st.totalCached) :
    (loadFile fs st path).2.openedFiles.length ≤ st.totalCached := by
  unfold loadFile
  by_cases hex : fs.ex path = false
  · rw [if_pos hex]
    exact Nat.le_trans (length_eraseA_le path st.openedFiles) hlen
  · rw [if_neg hex]
    by_cases hhit : (lookupA path st.openedFiles).isSome = true ∧
        metaMtime st path = fs.mtime path
    · rw [if_pos (by exact hhit)]
      cases hm : lookupA path st.openedMeta with
      | none => exact hlen
      | some m => exact hlen
    · rw [if_neg (by exact hhit)]
      exact realLoad_length fs st path hInv hcap hlen

theorem loadFile_good (cap : Nat) (hcap : 1 ≤ cap) (fs : FS α)
    (st : CacheState α) (path : String) (hg : GoodState cap st) :
    GoodState cap (loadFile fs st path).2 := by
  obtain ⟨hInv, hlen, htot⟩ := hg
  refine ⟨loadFile_inv fs st path hInv, ?_, ?_⟩
  · have := loadFile_length fs st path hInv (htot ▸ hcap) (htot ▸ hlen)
    rwa [htot] at this
  · rw [loadFile_total, htot]

theorem runTrace_good (cap : Nat) (hcap : 1 ≤ cap)
    (steps : List (FS α × String)) (st : CacheState α)
    (hg : GoodState cap st) : GoodState cap (runTrace steps st) := by
  induction steps generalizing st with
  | nil => exact hg
  | cons step steps ih =>
      show GoodState cap (runTrace steps (loadFile step.1 st step.2).2)
      exact ih _ (loadFile_good cap hcap step.1 st step.2 hg)

theorem emptyStore_good (cap : Nat) : GoodState cap (emptyStore α cap) :=
  ⟨⟨rfl, List.nodup_nil⟩, by simp [emptyStore], rfl⟩

theorem runTrace_inv (steps : List (FS α × String)) (st : CacheState α)
    (hInv : Inv st) : Inv (runTrace steps st) := by
  induction steps generalizing st with
  | nil => exact hInv
  | cons step steps ih =>
      show Inv (runTrace steps (loadFile step.1 st step.2).2)
      exact ih _ (loadFile_inv step.1 st step.2 hInv)

/-! ### Branch characterizations of `_loadFile` -/

theorem loadFile_notExists (fs : FS α) (st : CacheState α) (path : String)
    (hex : fs.ex path = false) :
    loadFile fs st path =
      (Except.ok none,
        { st with
          openedFiles := eraseA path st.openedFiles
          openedMeta := eraseA path st.openedMeta }) := by
  unfold loadFile
  rw [if_pos hex]

theorem loadFile_hit (fs : FS α) (st : CacheState α) (path : String)
    (v : α) (m : FileMeta)
    (hv : lookupA path st.openedFiles = some v)
    (hm : lookupA path st.openedMeta = some m)
    (hex : fs.ex path = true)
    (hmt : m.mtime = fs.mtime path) :
    loadFile fs st path =
      (Except.ok (some v),
        { st with openedMeta := bumpAc path st.openedMeta }) := by
  unfold loadFile
  rw [if_neg (by rw [hex]; exact fun h => Bool.noConfusion h)]
  rw [if_pos (show (lookupA path st.openedFiles).isSome = true ∧
      metaMtime st path = fs.mtime path from
    ⟨by rw [hv]; rfl, by unfold metaMtime; rw [hm]; exact hmt⟩)]
  rw [hm, hv]

theorem loadFile_miss (fs : FS α) (st : CacheState α) (path : String)
    (hex : fs.ex path = true)
    (hmiss : ¬ ((lookupA path st.openedFiles).isSome = true ∧
      metaMtime st path = fs.mtime path)) :
    loadFile fs st path =
      ((realLoad fs st path).1.map some, (realLoad fs st path).2) := by
  unfold loadFile
  rw [if_neg (by rw [hex]; exact fun h => Bool.noConfusion h)]
  rw [if_neg (by exact hmiss)]

theorem realLoad_ok (fs : FS α) (st : CacheState α) (path : String)
    (w : α) (hread : fs.read path = ReadResult.ok w) :
    realLoad fs st path =
      (Except.ok w,
        { evictPhase st with
          openedFiles := setA path w (evictPhase st).openedFiles
          openedMeta := setA path ⟨fs.mtime path, 1⟩
            (evictPhase st).openedMeta }) := by
  unfold realLoad
  rw [hread]

theorem realLoad_ioError (fs : FS α) (st : CacheState α) (path : String)
    (hread : fs.read path = ReadResult.ioError) :
    realLoad fs st path = (Except.error LoadErr.ioError, evictPhase st) := by
  unfold realLoad
  rw [hread]

theorem realLoad_parseError (fs : FS α) (st : CacheState α) (path : String)
    (hread : fs.read path = ReadResult.parseError) :
    realLoad fs st path =
      (Except.error LoadErr.parseError, evictPhase st) := by
  unfold realLoad
  rw [hread]

theorem evictPhase_total (st : CacheState α) :
    (evictPhase st).totalCached = st.totalCached := by
  unfold evictPhase
  by_cases hfull : st.totalCached ≤ st.openedFiles.length
  · rw [if_pos hfull, evictEntries_total]
  · rw [if_neg hfull]

theorem evictPhase_notFull (st : CacheState α)
    (h : ¬ st.totalCached ≤ st.openedFiles.length) : evictPhase st = st := by
  unfold evictPhase
  rw [if_neg h]

theorem evictPhase_lookupFiles_none (st : CacheState α) (q : String)
    (h : lookupA q st.openedFiles = none) :
    lookupA q (evictPhase st).openedFiles = none := by
  unfold evictPhase
  by_cases hfull : st.totalCached ≤ st.openedFiles.length
  · rw [if_pos hfull, evictEntries_lookupFiles]
    by_cases hmem : q ∈ keysOf ((sortAc st.openedMeta).take
        (st.openedFiles.length - st.totalCached + 1))
    · rw [if_pos hmem]
    · rw [if_neg hmem]
      exact h
  · rw [if_neg hfull]
    exact h

theorem evictPhase_lookupMeta_none (st : CacheState α) (q : String)
    (h : lookupA q st.openedMeta = none) :
    lookupA q (evictPhase st).openedMeta = none := by
  unfold evictPhase
  by_cases hfull : st.totalCached ≤ st.openedFiles.length
  · rw [if_pos hfull, evictEntries_lookupMeta]
    by_cases hmem : q ∈ keysOf ((sortAc st.openedMeta).take
        (st.openedFiles.length - st.totalCached + 1))
    · rw [if_pos hmem]
    · rw [if_neg hmem]
      exact h
  · rw [if_neg hfull]
    exact h

theorem evictPhase_subFiles (st : CacheState α) (q : String) (v : α)
    (h : lookupA q (evictPhase st).openedFiles = some v) :
    lookupA q st.openedFiles = some v := by
  revert h
  unfold evictPhase
  by_cases hfull : st.totalCached ≤ st.openedFiles.length
  · rw [if_pos hfull, evictEntries_lookupFiles]
    by_cases hmem : q ∈ keysOf ((sortAc st.openedMeta).take
        (st.openedFiles.length - st.totalCached + 1))
    · rw [if_pos hmem]
      exact fun h => Option.noConfusion h
    · rw [if_neg hmem]
      exact id
  · rw [if_neg hfull]
    exact id

theorem evictPhase_subMeta (st : CacheState α) (q : String) (m : FileMeta)
    (h : lookupA q (evictPhase st).openedMeta = some m) :
    lookupA q st.openedMeta = some m := by
  revert h
  unfold evictPhase
  by_cases hfull : st.totalCached ≤ st.openedFiles.length
  · rw [if_pos hfull, evictEntries_lookupMeta]
    by_cases hmem : q ∈ keysOf ((sortAc st.openedMeta).take
        (st.openedFiles.length - st.totalCached + 1))
    · rw [if_pos hmem]
      exact fun h => Option.noConfusion h
    · rw [if_neg hmem]
      exact id
  · rw [if_neg hfull]
    exact id

/-- A path absent from both dictionaries stays absent under any load of a
different path: it can never be an eviction candidate again until it is
itself reloaded. -/
theorem absent_preserved (fs' : FS α) (s : CacheState α) (p q : String)
    (hq : ¬ q = p)
    (hf : lookupA p s.openedFiles = none)
    (hm : lookupA p s.openedMeta = none) :
    lookupA p (loadFile fs' s q).2.openedFiles = none ∧
      lookupA p (loadFile fs' s q).2.openedMeta = none := by
  by_cases hex : fs'.ex q = false
  · rw [loadFile_notExists fs' s q hex]
    constructor
    · show lookupA p (eraseA q s.openedFiles) = none
      rw [lookupA_eraseA]
      by_cases hpq : p = q
      · rw [if_pos hpq]
      · rw [if_neg hpq]
        exact hf
    · show lookupA p (eraseA q s.openedMeta) = none
      rw [lookupA_eraseA]
      by_cases hpq : p = q
      · rw [if_pos hpq]
      · rw [if_neg hpq]
        exact hm
  · have hex' : fs'.ex q = true := by
      cases h : fs'.ex q
      · exact absurd h hex
      · rfl
    by_cases hhit : (lookupA q s.openedFiles).isSome = true ∧
        metaMtime s q = fs'.mtime q
    · cases hv : lookupA q s.openedFiles with
      | none => rw [hv] at hhit; exact absurd hhit.1 (by simp)
      | some v =>
          cases hmm : lookupA q s.openedMeta with
          | none =>
              unfold loadFile
              rw [if_neg (by rw [hex']; exact fun h => Bool.noConfusion h)]
              rw [if_pos (by exact hhit), hmm]
              exact ⟨hf, hm⟩
          | some mq =>
              rw [loadFile_hit fs' s q v mq hv hmm hex'
                (by
                  have := hhit.2
                  unfold metaMtime at this
                  rw [hmm] at this
                  exact this)]
              refine ⟨hf, ?_⟩
              show lookupA p (bumpAc q s.openedMeta) = none
              rw [lookupA_bumpAc, if_neg (fun h : p = q => hq h.symm)]
              exact hm
    · rw [loadFile_miss fs' s q hex' hhit]
      have hfp : lookupA p (evictPhase s).openedFiles = none :=
        evictPhase_lookupFiles_none s p hf
      have hmp : lookupA p (evictPhase s).openedMeta = none :=
        evictPhase_lookupMeta_none s p hm
      cases hr : fs'.read q with
      | ok w =>
          rw [realLoad_ok fs' s q w hr]
          constructor
          · show lookupA p (setA q w (evictPhase s).openedFiles) = none
            rw [lookupA_setA, if_neg (fun h : p = q => hq h.symm)]
            exact hfp
          · show lookupA p
              (setA q ⟨fs'.mtime q, 1⟩ (evictPhase s).openedMeta) = none
            rw [lookupA_setA, if_neg (fun h : p = q => hq h.symm)]
            exact hmp
      | ioError =>
          rw [realLoad_ioError fs' s q hr]
          exact ⟨hfp, hmp⟩
      | parseError =>
          rw [realLoad_parseError fs' s q hr]
          exact ⟨hfp, hmp⟩

/-- State after `n` consecutive fresh-mtime hit loads of a cached path:
the payload dictionary is untouched, the path's access count grows by `n`,
and all other metadata entries are untouched. -/
theorem iterHit_state (fs : FS α) (st : CacheState α) (path : String)
    (v : α) (m : FileMeta) (n : Nat)
    (hv : lookupA path st.openedFiles = some v)
    (hm : lookupA path st.openedMeta = some m)
    (hex : fs.ex path = true)
    (hmt : m.mtime = fs.mtime path) :
    (iterHit fs path n st).openedFiles = st.openedFiles ∧
    lookupA path (iterHit fs path n st).openedMeta =
      some ⟨m.mtime, m.ac + n⟩ ∧
    (∀ q, ¬ q = path →
      lookupA q (iterHit fs path n st).openedMeta =
        lookupA q st.openedMeta) := by
  induction n generalizing st m with
  | zero =>
      refine ⟨rfl, ?_, fun q hq => rfl⟩
      show lookupA path st.openedMeta = _
      rw [hm]
      rfl
  | succ n ih =>
      have hstep := loadFile_hit fs st path v m hv hm hex hmt
      have hfiles : (loadFile fs st path).2.openedFiles = st.openedFiles := by
        rw [hstep]
      have hmeta : lookupA path (loadFile fs st path).2.openedMeta =
          some ⟨m.mtime, m.ac + 1⟩ := by
        rw [hstep]
        show lookupA path (bumpAc path st.openedMeta) = _
        rw [lookupA_bumpAc, if_pos rfl, hm]
        rfl
      have hother : ∀ q, ¬ q = path →
          lookupA q (loadFile fs st path).2.openedMeta =
            lookupA q st.openedMeta := by
        intro q hq
        rw [hstep]
        show lookupA q (bumpAc path st.openedMeta) = _
        rw [lookupA_bumpAc, if_neg hq]
      have hv' : lookupA path (loadFile fs st path).2.openedFiles = some v := by
        rw [hfiles]
        exact hv
      have ihres := ih (loadFile fs st path).2 ⟨m.mtime, m.ac + 1⟩ hv' hmeta hmt
      refine ⟨?_, ?_, ?_⟩
      · show (iterHit fs path n (loadFile fs st path).2).openedFiles = _
        rw [ihres.1, hfiles]
      · show lookupA path
          (iterHit fs path n (loadFile fs st path).2).openedMeta = _
        rw [ihres.2.1]
        have hac : m.ac + 1 + n = m.ac + (n + 1) := by omega
        rw [hac]
      · intro q hq
        show lookupA q
          (iterHit fs path n (loadFile fs st path).2).openedMeta = _
        rw [ihres.2.2 q hq, hother q hq]

/-! ### Claim theorems -/

/-- C1: Capacity invariant: for every finite sequence of `_loadFile` calls
starting from an empty store, after each call the number of cached entries
is at most the capacity `_total_cached`, for any capacity at least 1.
(Each prefix of a trace is itself a trace, so the bound after every call
follows from the bound after an arbitrary trace.) -/
theorem C1_capacity_invariant (α : Type) (cap : Nat) (hcap : 1 ≤ cap)
    (steps : List (FS α × String)) :
    (runTrace steps (emptyStore α cap)).openedFiles.length ≤ cap :=
  (runTrace_good cap hcap steps (emptyStore α cap) (emptyStore_good cap)).2.1

theorem C1_capacity_invariant_witness :
    1 ≤ 2 ∧
      (runTrace [(fsFlat, "a"), (fsFlat, "b"), (fsFlat, "c")]
        (emptyStore Nat 2)).openedFiles.length ≤ 2 :=
  ⟨by decide, C1_capacity_invariant Nat 2 (by decide)
    [(fsFlat, "a"), (fsFlat, "b"), (fsFlat, "c")]⟩

/-- C10: after every `_loadFile` call in a trace from the empty store, the
key set (indeed the key list) of `_opened_files` equals that of
`_opened_meta`: insertion, eviction and deletion-on-missing-file update
both dictionaries together. -/
theorem C10_keyset_agreement (α : Type) (cap : Nat)
    (steps : List (FS α × String)) :
    keysOf (runTrace steps (emptyStore α cap)).openedFiles =
      keysOf (runTrace steps (emptyStore α cap)).openedMeta :=
  (runTrace_inv steps (emptyStore α cap) ⟨rfl, List.nodup_nil⟩).1

/-- C8: the concrete capacity-2 scenario of the spec: starting empty with
files `a`, `b`, `c` all present and unmodified, the successive stores after
`Load a`, `Load a`, `Load b`, `Load c`, `Load b` are exactly as the spec
lists them: `c` evicts `b`, and the final `Load b` evicts `c`. -/
theorem C8_concrete_scenario :
    (runTrace [(fsABC, "a")] (emptyStore Nat 2)).openedFiles =
      [("a", 1)] ∧
    (runTrace [(fsABC, "a")] (emptyStore Nat 2)).openedMeta =
      [("a", ⟨10, 1⟩)] ∧
    (runTrace [(fsABC, "a"), (fsABC, "a")] (emptyStore Nat 2)).openedFiles =
      [("a", 1)] ∧
    (runTrace [(fsABC, "a"), (fsABC, "a")] (emptyStore Nat 2)).openedMeta =
      [("a", ⟨10, 2⟩)] ∧
    (runTrace [(fsABC, "a"), (fsABC, "a"), (fsABC, "b")]
        (emptyStore Nat 2)).openedFiles = [("a", 1), ("b", 2)] ∧
    (runTrace [(fsABC, "a"), (fsABC, "a"), (fsABC, "b")]
        (emptyStore Nat 2)).openedMeta =
      [("a", ⟨10, 2⟩), ("b", ⟨20, 1⟩)] ∧
    (runTrace [(fsABC, "a"), (fsABC, "a"), (fsABC, "b"), (fsABC, "c")]
        (emptyStore Nat 2)).openedFiles = [("a", 1), ("c", 3)] ∧
    (runTrace [(fsABC, "a"), (fsABC, "a"), (fsABC, "b"), (fsABC, "c")]
        (emptyStore Nat 2)).openedMeta =
      [("a", ⟨10, 2⟩), ("c", ⟨30, 1⟩)] ∧
    (runTrace [(fsABC, "a"), (fsABC, "a"), (fsABC, "b"), (fsABC, "c"),
        (fsABC, "b")] (emptyStore Nat 2)).openedFiles =
      [("a", 1), ("b", 2)] ∧
    (runTrace [(fsABC, "a"), (fsABC, "a"), (fsABC, "b"), (fsABC, "c"),
        (fsABC, "b")] (emptyStore Nat 2)).openedMeta =
      [("a", ⟨10, 2⟩), ("b", ⟨20, 1⟩)] := by
  exact ⟨rfl, rfl, rfl, rfl, rfl, rfl, rfl, rfl, rfl, rfl⟩

/-- C5: Deletion correctness: when the file does not exist, `_loadFile`
returns `None`, removes the path from both dictionaries, leaves every
other entry untouched; and a path absent from both dictionaries stays
absent under later loads of other paths, so it participates in no later
eviction selection until it is itself reloaded. -/
theorem C5_deletion_correctness (α : Type) (fs : FS α) (st : CacheState α)
    (path : String) (hex : fs.ex path = false) :
    (loadFile fs st path).1 = Except.ok none ∧
    lookupA path (loadFile fs st path).2.openedFiles = none ∧
    lookupA path (loadFile fs st path).2.openedMeta = none ∧
    (∀ q, ¬ q = path →
      lookupA q (loadFile fs st path).2.openedFiles =
        lookupA q st.openedFiles ∧
      lookupA q (loadFile fs st path).2.openedMeta =
        lookupA q st.openedMeta) ∧
    (∀ (s : CacheState α) (fs2 : FS α) (q : String), ¬ q = path →
      lookupA path s.openedFiles = none →
      lookupA path s.openedMeta = none →
      lookupA path (loadFile fs2 s q).2.openedFiles = none ∧
      lookupA path (loadFile fs2 s q).2.openedMeta = none) := by
  rw [loadFile_notExists fs st path hex]
  refine ⟨rfl, ?_, ?_, ?_, ?_⟩
  · show lookupA path (eraseA path st.openedFiles) = none
    rw [lookupA_eraseA, if_pos rfl]
  · show lookupA path (eraseA path st.openedMeta) = none
    rw [lookupA_eraseA, if_pos rfl]
  · intro q hqp
    constructor
    · show lookupA q (eraseA path st.openedFiles) = _
      rw [lookupA_eraseA, if_neg hqp]
    · show lookupA q (eraseA path st.openedMeta) = _
      rw [lookupA_eraseA, if_neg hqp]
  · intro s fs2 q hqp hf hm
    exact absent_preserved fs2 s path q hqp hf hm

theorem C5_deletion_correctness_witness :
    fsNone.ex "a" = false ∧
    ((loadFile fsNone stOneA "a").1 = Except.ok none ∧
      lookupA "a" (loadFile fsNone stOneA "a").2.openedFiles = none ∧
      lookupA "a" (loadFile fsNone stOneA "a").2.openedMeta = none ∧
      (∀ q, ¬ q = "a" →
        lookupA q (loadFile fsNone stOneA "a").2.openedFiles =
          lookupA q stOneA.openedFiles ∧
        lookupA q (loadFile fsNone stOneA "a").2.openedMeta =
          lookupA q stOneA.openedMeta) ∧
      (∀ (s : CacheState Nat) (fs2 : FS Nat) (q : String), ¬ q = "a" →
        lookupA "a" s.openedFiles = none →
        lookupA "a" s.openedMeta = none →
        lookupA "a" (loadFile fs2 s q).2.openedFiles = none ∧
        lookupA "a" (loadFile fs2 s q).2.openedMeta = none)) :=
  ⟨rfl, C5_deletion_correctness Nat fsNone stOneA "a" rfl⟩

/-- C4: Hit correctness: when `path` is cached and its stored mtime equals
the file's current mtime, `_loadFile` returns the cached payload
unchanged, leaves `_opened_files` untouched, increments only that entry's
access count by exactly 1, and consults only existence and mtime — any
filesystem agreeing on `ex` and `mtime` (with arbitrary file contents)
yields the identical result and state. -/
theorem C4_hit_correctness (α : Type) (fs : FS α) (st : CacheState α)
    (path : String) (v : α) (m : FileMeta)
    (hv : lookupA path st.openedFiles = some v)
    (hm : lookupA path st.openedMeta = some m)
    (hex : fs.ex path = true)
    (hmt : m.mtime = fs.mtime path) :
    (loadFile fs st path).1 = Except.ok (some v) ∧
    (loadFile fs st path).2.openedFiles = st.openedFiles ∧
    lookupA path (loadFile fs st path).2.openedMeta =
      some ⟨m.mtime, m.ac + 1⟩ ∧
    (∀ q, ¬ q = path →
      lookupA q (loadFile fs st path).2.openedMeta =
        lookupA q st.openedMeta) ∧
    (∀ fs2 : FS α, fs2.ex = fs.ex → fs2.mtime = fs.mtime →
      loadFile fs2 st path = loadFile fs st path) := by
  rw [loadFile_hit fs st path v m hv hm hex hmt]
  refine ⟨rfl, rfl, ?_, ?_, ?_⟩
  · show lookupA path (bumpAc path st.openedMeta) = _
    rw [lookupA_bumpAc, if_pos rfl, hm]
    rfl
  · intro q hqp
    show lookupA q (bumpAc path st.openedMeta) = _
    rw [lookupA_bumpAc, if_neg hqp]
  · intro fs2 hex2 hmt2
    rw [loadFile_hit fs2 st path v m hv hm (by rw [hex2]; exact hex)
      (by rw [hmt2]; exact hmt)]

theorem C4_hit_correctness_witness :
    (loadFile fsFlat stOneA "a").1 = Except.ok (some 3) ∧
    (loadFile fsFlat stOneA "a").2.openedFiles = stOneA.openedFiles ∧
    lookupA "a" (loadFile fsFlat stOneA "a").2.openedMeta =
      some ⟨5, 2⟩ ∧
    (∀ q, ¬ q = "a" →
      lookupA q (loadFile fsFlat stOneA "a").2.openedMeta =
        lookupA q stOneA.openedMeta) ∧
    (∀ fs2 : FS Nat, fs2.ex = fsFlat.ex → fs2.mtime = fsFlat.mtime →
      loadFile fs2 stOneA "a" = loadFile fsFlat stOneA "a") :=
  C4_hit_correctness Nat fsFlat stOneA "a" 3 ⟨5, 1⟩ rfl rfl rfl rfl

/-- C6: Staleness correctness: when `path` is cached but its stored mtime
differs from the file's current mtime, `_loadFile` re-reads and re-parses
the file and installs a fresh entry: the newly parsed payload, the mtime
read during this call, and access count reset to 1. -/
theorem C6_staleness_correctness (α : Type) (fs : FS α)
    (st : CacheState α) (path : String) (v : α) (m : FileMeta) (w : α)
    (hv : lookupA path st.openedFiles = some v)
    (hm : lookupA path st.openedMeta = some m)
    (hex : fs.ex path = true)
    (hne : ¬ m.mtime = fs.mtime path)
    (hread : fs.read path = ReadResult.ok w) :
    (loadFile fs st path).1 = Except.ok (some w) ∧
    lookupA path (loadFile fs st path).2.openedFiles = some w ∧
    lookupA path (loadFile fs st path).2.openedMeta =
      some ⟨fs.mtime path, 1⟩ := by
  have hmiss : ¬ ((lookupA path st.openedFiles).isSome = true ∧
      metaMtime st path = fs.mtime path) := by
    intro h
    apply hne
    have h2 := h.2
    unfold metaMtime at h2
    rw [hm] at h2
    exact h2
  rw [loadFile_miss fs st path hex hmiss, realLoad_ok fs st path w hread]
  refine ⟨rfl, ?_, ?_⟩
  · show lookupA path (setA path w (evictPhase st).openedFiles) = some w
    rw [lookupA_setA, if_pos rfl]
  · show lookupA path
      (setA path ⟨fs.mtime path, 1⟩ (evictPhase st).openedMeta) = some _
    rw [lookupA_setA, if_pos rfl]

theorem C6_staleness_correctness_witness :
    (loadFile fsABC stFullP "p").1 = Except.ok (some 3) ∧
    lookupA "p" (loadFile fsABC stFullP "p").2.openedFiles = some 3 ∧
    lookupA "p" (loadFile fsABC stFullP "p").2.openedMeta =
      some ⟨30, 1⟩ :=
  C6_staleness_correctness Nat fsABC stFullP "p" 7 ⟨5, 2⟩ 3 rfl rfl rfl
    (by decide) rfl

/-- C7: Idempotence of hits: `n ≥ 1` consecutive loads of a cached path
whose mtime is unchanged leave the payload dictionary (hence the entry's
payload and every other entry) untouched and leave every other metadata
entry untouched; only the entry's access count changes, growing by
exactly `n`. -/
theorem C7_hit_idempotence (α : Type) (fs : FS α) (st : CacheState α)
    (path : String) (v : α) (m : FileMeta) (n : Nat)
    (hv : lookupA path st.openedFiles = some v)
    (hm : lookupA path st.openedMeta = some m)
    (hex : fs.ex path = true)
    (hmt : m.mtime = fs.mtime path)
    (hn : 1 ≤ n) :
    (iterHit fs path n st).openedFiles = st.openedFiles ∧
    lookupA path (iterHit fs path n st).openedMeta =
      some ⟨m.mtime, m.ac + n⟩ ∧
    (∀ q, ¬ q = path →
      lookupA q (iterHit fs path n st).openedMeta =
        lookupA q st.openedMeta) :=
  iterHit_state fs st path v m n hv hm hex hmt

theorem C7_hit_idempotence_witness :
    1 ≤ 2 ∧
    ((iterHit fsFlat "a" 2 stOneA).openedFiles = stOneA.openedFiles ∧
      lookupA "a" (iterHit fsFlat "a" 2 stOneA).openedMeta =
        some ⟨5, 3⟩ ∧
      (∀ q, ¬ q = "a" →
        lookupA q (iterHit fsFlat "a" 2 stOneA).openedMeta =
          lookupA q stOneA.openedMeta)) :=
  ⟨by decide,
    C7_hit_idempotence Nat fsFlat stOneA "a" 3 ⟨5, 1⟩ 2 rfl rfl rfl rfl
      (by decide)⟩

/-- C3: Eviction selection: on a miss/stale load with the store full, the
eviction list is exactly the first `len(entries) - capacity + 1` items of
the stable sort of the metadata by access count; its entries are entries
of the store; each selected entry either has a strictly smaller access
count than every non-selected entry or ties with it and was inserted
earlier; and the final state removes exactly the selected paths, leaving
every other path (re-loaded `path` apart) untouched. -/
theorem C3_eviction_selection (α : Type) (fs : FS α) (st : CacheState α)
    (path : String)
    (hInv : Inv st) (hcap : 1 ≤ st.totalCached)
    (hfull : st.totalCached ≤ st.openedFiles.length)
    (hex : fs.ex path = true)
    (hmiss : ¬ ((lookupA path st.openedFiles).isSome = true ∧
      metaMtime st path = fs.mtime path)) :
    ((sortAc st.openedMeta).take
        (st.openedFiles.length - st.totalCached + 1)).length =
      st.openedFiles.length - st.totalCached + 1 ∧
    (∀ e ∈ (sortAc st.openedMeta).take
        (st.openedFiles.length - st.totalCached + 1),
      e ∈ st.openedMeta) ∧
    (∀ e ∈ (sortAc st.openedMeta).take
        (st.openedFiles.length - st.totalCached + 1),
      ∀ e2 ∈ st.openedMeta,
        e2 ∉ (sortAc st.openedMeta).take
          (st.openedFiles.length - st.totalCached + 1) →
        EvictsBefore st.openedMeta e e2) ∧
    (∀ q, ¬ q = path →
      lookupA q (loadFile fs st path).2.openedFiles =
        (if q ∈ keysOf ((sortAc st.openedMeta).take
            (st.openedFiles.length - st.totalCached + 1)) then none
          else lookupA q st.openedFiles) ∧
      lookupA q (loadFile fs st path).2.openedMeta =
        (if q ∈ keysOf ((sortAc st.openedMeta).take
            (st.openedFiles.length - st.totalCached + 1)) then none
          else lookupA q st.openedMeta)) := by
  obtain ⟨hlen, hnd, hsub, hfin⟩ := full_evict_facts st hInv hcap hfull
  refine ⟨hlen, ?_, ?_, ?_⟩
  · intro e he
    exact (sortAc_perm st.openedMeta).mem_iff.mp
      (List.take_subset _ (sortAc st.openedMeta) he)
  · intro e he e2 he2 hne2
    exact take_sortAc_spec st.openedMeta
      (st.openedFiles.length - st.totalCached + 1) he he2 hne2
  · have hev : evictPhase st = evictEntries st ((sortAc st.openedMeta).take
        (st.openedFiles.length - st.totalCached + 1)) := by
      unfold evictPhase
      rw [if_pos hfull]
    intro q hqp
    rw [loadFile_miss fs st path hex hmiss]
    cases hr : fs.read path with
    | ok w =>
        rw [realLoad_ok fs st path w hr]
        constructor
        · show lookupA q (setA path w (evictPhase st).openedFiles) = _
          rw [lookupA_setA, if_neg hqp, hev, evictEntries_lookupFiles]
        · show lookupA q
            (setA path ⟨fs.mtime path, 1⟩ (evictPhase st).openedMeta) = _
          rw [lookupA_setA, if_neg hqp, hev, evictEntries_lookupMeta]
    | ioError =>
        rw [realLoad_ioError fs st path hr]
        constructor
        · show lookupA q (evictPhase st).openedFiles = _
          rw [hev, evictEntries_lookupFiles]
        · show lookupA q (evictPhase st).openedMeta = _
          rw [hev, evictEntries_lookupMeta]
    | parseError =>
        rw [realLoad_parseError fs st path hr]
        constructor
        · show lookupA q (evictPhase st).openedFiles = _
          rw [hev, evictEntries_lookupFiles]
        · show lookupA q (evictPhase st).openedMeta = _
          rw [hev, evictEntries_lookupMeta]

theorem C3_eviction_selection_witness :
    ((sortAc stFullA.openedMeta).take
        (stFullA.openedFiles.length - stFullA.totalCached + 1)).length =
      stFullA.openedFiles.length - stFullA.totalCached + 1 ∧
    (∀ e ∈ (sortAc stFullA.openedMeta).take
        (stFullA.openedFiles.length - stFullA.totalCached + 1),
      e ∈ stFullA.openedMeta) ∧
    (∀ e ∈ (sortAc stFullA.openedMeta).take
        (stFullA.openedFiles.length - stFullA.totalCached + 1),
      ∀ e2 ∈ stFullA.openedMeta,
        e2 ∉ (sortAc stFullA.openedMeta).take
          (stFullA.openedFiles.length - stFullA.totalCached + 1) →
        EvictsBefore stFullA.openedMeta e e2) ∧
    (∀ q, ¬ q = "b" →
      lookupA q (loadFile fsFlat stFullA "b").2.openedFiles =
        (if q ∈ keysOf ((sortAc stFullA.openedMeta).take
            (stFullA.openedFiles.length - stFullA.totalCached + 1))
          then none else lookupA q stFullA.openedFiles) ∧
      lookupA q (loadFile fsFlat stFullA "b").2.openedMeta =
        (if q ∈ keysOf ((sortAc stFullA.openedMeta).take
            (stFullA.openedFiles.length - stFullA.totalCached + 1))
          then none else lookupA q stFullA.openedMeta)) :=
  C3_eviction_selection Nat fsFlat stFullA "b" (by decide) (by decide)
    (by decide) rfl (by decide)

/-- C2 counterexample: with a full capacity-1 store holding `a` and a
parse failure on loading `b`, the `ParseError` propagates but the store
is NOT left as it was: the pre-read eviction already removed `a`. -/
theorem C2_error_atomicity_counterexample :
    fsParseFail.ex "b" = true ∧
    (loadFile fsParseFail stFullA "b").1 =
      Except.error LoadErr.parseError ∧
    ¬ (loadFile fsParseFail stFullA "b").2.openedFiles =
      stFullA.openedFiles :=
  ⟨rfl, rfl, by decide⟩

/-- C2 (amended): on a miss/stale load whose read or parse fails, the
matching error propagates to the caller and no entry is inserted or
modified (every surviving entry already had the same value before the
call); the store is left exactly as before the call whenever
`len(entries) < capacity` — but when the store is full the eviction
performed before the read persists. -/
theorem C2_error_propagation (α : Type) (fs : FS α) (st : CacheState α)
    (path : String)
    (hex : fs.ex path = true)
    (hmiss : ¬ ((lookupA path st.openedFiles).isSome = true ∧
      metaMtime st path = fs.mtime path))
    (herr : fs.read path = ReadResult.ioError ∨
      fs.read path = ReadResult.parseError) :
    ((fs.read path = ReadResult.ioError ∧
        (loadFile fs st path).1 = Except.error LoadErr.ioError) ∨
      (fs.read path = ReadResult.parseError ∧
        (loadFile fs st path).1 = Except.error LoadErr.parseError)) ∧
    (∀ q v, lookupA q (loadFile fs st path).2.openedFiles = some v →
      lookupA q st.openedFiles = some v) ∧
    (∀ q mq, lookupA q (loadFile fs st path).2.openedMeta = some mq →
      lookupA q st.openedMeta = some mq) ∧
    (st.openedFiles.length < st.totalCached →
      (loadFile fs st path).2 = st) := by
  rw [loadFile_miss fs st path hex hmiss]
  rcases herr with hr | hr
  · rw [realLoad_ioError fs st path hr]
    refine ⟨Or.inl ⟨hr, rfl⟩, ?_, ?_, ?_⟩
    · intro q v h
      exact evictPhase_subFiles st q v h
    · intro q mq h
      exact evictPhase_subMeta st q mq h
    · intro hsmall
      show evictPhase st = st
      exact evictPhase_notFull st (by omega)
  · rw [realLoad_parseError fs st path hr]
    refine ⟨Or.inr ⟨hr, rfl⟩, ?_, ?_, ?_⟩
    · intro q v h
      exact evictPhase_subFiles st q v h
    · intro q mq h
      exact evictPhase_subMeta st q mq h
    · intro hsmall
      show evictPhase st = st
      exact evictPhase_notFull st (by omega)

theorem C2_error_propagation_witness :
    ((fsParseFail.read "b" = ReadResult.ioError ∧
        (loadFile fsParseFail stOneA "b").1 =
          Except.error LoadErr.ioError) ∨
      (fsParseFail.read "b" = ReadResult.parseError ∧
        (loadFile fsParseFail stOneA "b").1 =
          Except.error LoadErr.parseError)) ∧
    (∀ q v, lookupA q (loadFile fsParseFail stOneA "b").2.openedFiles =
        some v → lookupA q stOneA.openedFiles = some v) ∧
    (∀ q mq, lookupA q (loadFile fsParseFail stOneA "b").2.openedMeta =
        some mq → lookupA q stOneA.openedMeta = some mq) ∧
    (stOneA.openedFiles.length < stOneA.totalCached →
      (loadFile fsParseFail stOneA "b").2 = stOneA) :=
  C2_error_propagation Nat fsParseFail stOneA "b" rfl (by decide)
    (Or.inr rfl)

/-- C9 counterexample: with a full capacity-1 store holding `p`, a stale
reload of `p` whose parse fails leaves the store WITHOUT the previously
good entry for `p`: the pre-read eviction removed it and nothing was
re-inserted. -/
theorem C9_failed_reload_counterexample :
    lookupA "p" stFullP.openedFiles = some 7 ∧
    lookupA "p" stFullP.openedMeta = some ⟨5, 2⟩ ∧
    fsStaleFail.ex "p" = true ∧
    (loadFile fsStaleFail stFullP "p").1 =
      Except.error LoadErr.parseError ∧
    lookupA "p" (loadFile fsStaleFail stFullP "p").2.openedFiles = none :=
  ⟨rfl, rfl, rfl, rfl, rfl⟩

/-- C9 (amended): a failed reload never overwrites a previously good entry
with new data, and whenever no eviction was triggered
(`len(entries) < capacity`) the pre-existing entry for the reloaded path
survives the failed call with payload, mtime and access count intact; when
the store is full the pre-read eviction may instead have removed it. -/
theorem C9_failed_reload_preserves_entry (α : Type) (fs : FS α)
    (st : CacheState α) (path : String) (v : α) (m : FileMeta)
    (hv : lookupA path st.openedFiles = some v)
    (hm : lookupA path st.openedMeta = some m)
    (hex : fs.ex path = true)
    (hne : ¬ m.mtime = fs.mtime path)
    (herr : fs.read path = ReadResult.ioError ∨
      fs.read path = ReadResult.parseError)
    (hsmall : st.openedFiles.length < st.totalCached) :
    ((loadFile fs st path).1 = Except.error LoadErr.ioError ∨
      (loadFile fs st path).1 = Except.error LoadErr.parseError) ∧
    lookupA path (loadFile fs st path).2.openedFiles = some v ∧
    lookupA path (loadFile fs st path).2.openedMeta = some m := by
  have hmiss : ¬ ((lookupA path st.openedFiles).isSome = true ∧
      metaMtime st path = fs.mtime path) := by
    intro h
    apply hne
    have h2 := h.2
    unfold metaMtime at h2
    rw [hm] at h2
    exact h2
  rw [loadFile_miss fs st path hex hmiss]
  have hev : evictPhase st = st := evictPhase_notFull st (by omega)
  rcases herr with hr | hr
  · rw [realLoad_ioError fs st path hr, hev]
    exact ⟨Or.inl rfl, hv, hm⟩
  · rw [realLoad_parseError fs st path hr, hev]
    exact ⟨Or.inr rfl, hv, hm⟩

theorem C9_failed_reload_preserves_entry_witness :
    ((loadFile fsStaleFail stPBig "p").1 =
        Except.error LoadErr.ioError ∨
      (loadFile fsStaleFail stPBig "p").1 =
        Except.error LoadErr.parseError) ∧
    lookupA "p" (loadFile fsStaleFail stPBig "p").2.openedFiles =
      some 7 ∧
    lookupA "p" (loadFile fsStaleFail stPBig "p").2.openedMeta =
      some ⟨5, 2⟩ :=
  C9_failed_reload_preserves_entry Nat fsStaleFail stPBig "p" 7 ⟨5, 2⟩
    rfl rfl rfl (by decide) (Or.inr rfl) (by decide)

end LdxCache
